import Mathlib

/-!
Shallow embedding of the series buffering, statistics and scale-mapping
engine of ttyplot (src/ttyplot.cpp).

Doubles are modelled as exact rationals (the claims under verification are
exact arithmetic identities and list/length facts, none of which depend on
floating-point rounding).  `std::deque<double>` becomes `List ℚ`
(`push_back` appends at the tail, `pop_front` drops the head), the
process-wide `std::map<std::string, values_t> values` together with the
static `values_t::max_size` become a `Store` (an association list kept
sorted by key, plus the shared `max_size` counter).
-/

namespace Ttyplot

set_option maxHeartbeats 1000000 in
/-- FLT_MAX written exactly: (2 - 2⁻²³) · 2¹²⁷ = 2¹²⁸ - 2¹⁰⁴ as a literal.
Source: `#define DOUBLE_MAX FLT_MAX` (src/ttyplot.cpp:38). -/
def DOUBLE_MAX : ℚ := 340282346638528859811704183484516925440

/-- Source: `#define DOUBLE_MIN (-FLT_MAX)` (src/ttyplot.cpp:37). -/
def DOUBLE_MIN : ℚ := -DOUBLE_MAX

/-- the sentinel padding value; `#define DOUBLE_UNINIT DOUBLE_MIN`
(src/ttyplot.cpp:39). -/
def DOUBLE_UNINIT : ℚ := DOUBLE_MIN

/-- `struct values_t` (src/ttyplot.cpp:236-477).  The static member
`max_size` is threaded explicitly through the operations that read or
write it.  Default field values are those produced by value
initialization in `std::map::operator[]`. -/
structure values_t where
  vec : List ℚ
  pval : ℚ := 0
  max : ℚ := 0
  min : ℚ := 0
  avg : ℚ := 0
  med : ℚ := 0
  name : String
  bars : Bool := false
  did_push_back : Bool := false
deriving DecidableEq, Repr

/-- a `values_t` as created by `values[s]` followed by `init(s)`:
empty deque, zeroed scalars, name set. -/
def values_t.mk0 (s : String) : values_t :=
  { vec := [], name := s }

/-- `values_t::push_back(cval, plotwidth, b)` (src/ttyplot.cpp:265-288).
Takes the current static `max_size` and returns the updated series
together with the updated `max_size`. -/
def values_t.push_back (v : values_t) (cval : ℚ) (plotwidth : Nat) (b : Bool)
    (max_size : Nat) : values_t × Nat :=
  let vec1 := if 0 < max_size ∧ v.vec.length < max_size - 1
    then v.vec ++ List.replicate (max_size - 1 - v.vec.length) DOUBLE_UNINIT
    else v.vec
  let vec2 := vec1 ++ [cval]
  let vec3 := if plotwidth < vec2.length then vec2.tail else vec2
  let ms := if max_size < vec3.length then vec3.length else max_size
  ({ v with vec := vec3, bars := b, did_push_back := true }, ms)

/-- `values_t::rate(td)` (src/ttyplot.cpp:291-328): rewrites the last
entry of `vec` into a rate, with 32-bit and 31-bit counter-wraparound
reconstruction. -/
def values_t.rate (v : values_t) (td : ℚ) : values_t :=
  match v.vec with
  | [] => v
  | [x] => { v with pval := x, vec := [0] }
  | _ :: _ :: _ =>
    let cval := v.vec.getLastD 0
    let d :=
      if 0xffffff00 ≤ v.pval ∧ 0 ≤ cval ∧ cval < 0xff then
        cval + (v.pval - 0xffffff00)
      else if 0x7fffff00 ≤ v.pval ∧ v.pval ≤ 0x7fffffff ∧ 0 ≤ cval ∧ cval < 0xff then
        cval + (v.pval - 0x7fffff00)
      else
        cval - v.pval
    { v with vec := v.vec.dropLast ++ [d / td], pval := cval }

/-- the non-sentinel entries of the history, in order: the `med_vec`
population accumulated by `values_t::update` (src/ttyplot.cpp:344-355). -/
def values_t.statEntries (v : values_t) : List ℚ :=
  v.vec.filter (fun x => decide (x ≠ DOUBLE_UNINIT))

/-- the running-maximum step `if (val > max) max = val` of the update
loop (src/ttyplot.cpp:348-349). -/
def qmaxf (a x : ℚ) : ℚ := if a < x then x else a

/-- the running-minimum step `if (val < min) min = val` of the update
loop (src/ttyplot.cpp:350-351). -/
def qminf (a x : ℚ) : ℚ := if x < a then x else a

/-- `values_t::update()` (src/ttyplot.cpp:331-367): recomputes min, max,
avg and med over the non-sentinel entries; all four are zero when there
are none. -/
def values_t.update (v : values_t) : values_t :=
  if v.vec = [] then { v with min := 0, max := 0, avg := 0, med := 0 }
  else
    let mv := v.statEntries
    if mv = [] then { v with min := 0, max := 0, avg := 0, med := 0 }
    else
      { v with
        max := mv.foldl qmaxf DOUBLE_MIN,
        min := mv.foldl qminf DOUBLE_MAX,
        avg := mv.foldl (· + ·) 0 / (mv.length : ℚ),
        med := (List.insertionSort (fun a b : ℚ => a ≤ b) mv).getD (mv.length / 2) 0 }

/-- `values_t::last()` (src/ttyplot.cpp:466-476): last non-sentinel entry
scanning from the tail, 0 if none. -/
def values_t.last (v : values_t) : ℚ :=
  (v.vec.reverse.find? (fun x => decide (x ≠ DOUBLE_UNINIT))).getD 0

/-- result of classifying one value inside `values_t::plot`:
the screen row and the two error flags. -/
structure RowClass where
  row : ℤ
  errHigh : Bool
  errLow : Bool
deriving DecidableEq, Repr

/-- truncation toward zero, the semantics of `static_cast<int>` on a
double (src/ttyplot.cpp:417). -/
def qtrunc (q : ℚ) : ℤ := if 0 ≤ q then ⌊q⌋ else -⌊-q⌋

/-- the per-value row classification of `values_t::plot`
(src/ttyplot.cpp:402-421): hardmax test first, then the global-min test,
otherwise the linear map clamped below at row 0. -/
def mapRow (val : ℚ) (plotheight : ℤ) (global_max global_min hardmax : ℚ) : RowClass :=
  if hardmax ≤ val then { row := 0, errHigh := true, errLow := false }
  else if val ≤ global_min then { row := plotheight - 1, errHigh := false, errLow := true }
  else
    let mymax := global_max - global_min
    let y := plotheight - qtrunc ((val - global_min) / mymax * (plotheight : ℚ)) - 1
    { row := if y < 0 then 0 else y, errHigh := false, errLow := false }

/-- the per-cycle window computation of `main` (src/ttyplot.cpp:856-877):
update every series, widen the running `global_max`/`global_min` by each
series' stats, then apply the soft bounds (raise/lower only) and the hard
bounds (force exactly, when distinct from the sentinels).  Returns
`(global_max, global_min)`. -/
def computeWindow (global_max0 global_min0 : ℚ) (series : List values_t)
    (softmax softmin hardmax hardmin : ℚ) : ℚ × ℚ :=
  let upd := series.map values_t.update
  let gmax1 := upd.foldl (fun g p => qmaxf g p.max) global_max0
  let gmin1 := upd.foldl (fun g p => qminf g p.min) global_min0
  let gmax2 := if gmax1 < softmax then softmax else gmax1
  let gmax3 := if hardmax ≠ DOUBLE_MAX then hardmax else gmax2
  let gmin2 := if softmin < gmin1 then softmin else gmin1
  let gmin3 := if hardmin ≠ DOUBLE_MIN then hardmin else gmin2
  (gmax3, gmin3)

/-- the process-wide state: `std::map<std::string, values_t> values`
(src/ttyplot.cpp:481) as an association list sorted by key, plus the
static `values_t::max_size` (src/ttyplot.cpp:479). -/
structure Store where
  values : List (String × values_t)
  max_size : Nat
deriving DecidableEq, Repr

/-- the store at program start (key/value mode: `values.clear()`). -/
def Store.empty : Store := { values := [], max_size := 0 }

/-- `std::map::find` on the association list. -/
def lookupS : List (String × values_t) → String → Option values_t
  | [], _ => none
  | p :: rest, s => if p.1 = s then some p.2 else lookupS rest s

/-- insertion at the position `std::map` (ordered by key) would choose;
only ever called for a key not yet present. -/
def insertSorted (l : List (String × values_t)) (s : String) (v : values_t) :
    List (String × values_t) :=
  match l with
  | [] => [(s, v)]
  | p :: rest => if s < p.1 then (s, v) :: p :: rest else p :: insertSorted rest s v

/-- the free function `push_back(s, v, plotwidth, bars)`
(src/ttyplot.cpp:482-496): no-op on an empty name, otherwise look up or
create the series and delegate to `values_t::push_back`. -/
def Store.push_back (st : Store) (s : String) (v : ℚ) (plotwidth : Nat) (b : Bool) :
    Store :=
  if s = "" then st
  else
    match lookupS st.values s with
    | some val =>
      let r := val.push_back v plotwidth b st.max_size
      { values := st.values.map (fun p => if p.1 = s then (p.1, r.1) else p),
        max_size := r.2 }
    | none =>
      let r := (values_t.mk0 s).push_back v plotwidth b st.max_size
      { values := insertSorted st.values s r.1, max_size := r.2 }

/-- start of a key/value cycle (src/ttyplot.cpp:752-756): clear
`did_push_back` on every series. -/
def Store.clearFlags (st : Store) : Store :=
  { st with values := st.values.map (fun p => (p.1, { p.2 with did_push_back := false })) }

/-- one step of the end-of-cycle reconciliation loop
(src/ttyplot.cpp:776-783): a series that received no sample this cycle is
pushed one sentinel entry, directly on the entry (no name check). -/
def Store.padOne (st : Store) (n : String) (plotwidth : Nat) (b : Bool) : Store :=
  match lookupS st.values n with
  | none => st
  | some val =>
    if val.did_push_back then st
    else
      let r := val.push_back DOUBLE_UNINIT plotwidth b st.max_size
      { values := st.values.map (fun p => if p.1 = n then (p.1, r.1) else p),
        max_size := r.2 }

/-- the whole end-of-cycle reconciliation loop, iterating the map in key
order. -/
def Store.padAll (st : Store) (plotwidth : Nat) (b : Bool) : Store :=
  (st.values.map Prod.fst).foldl (fun a n => a.padOne n plotwidth b) st

/-- one complete key/value-mode ingest cycle (src/ttyplot.cpp:750-783):
clear all flags, push every parsed (name, value) pair in line order, then
pad every series that received no sample with one sentinel entry. -/
def Store.kvCycle (st : Store) (pairs : List (String × ℚ)) (plotwidth : Nat)
    (b : Bool) : Store :=
  let st1 := st.clearFlags
  let st2 := pairs.foldl (fun a kv => a.push_back kv.1 kv.2 plotwidth b) st1
  st2.padAll plotwidth b

/-- one ingest call as issued by the main loop: a name, a value and the
`plotwidth` in effect at the time of the call. -/
structure Op where
  key : String
  val : ℚ
  width : Nat
  bars : Bool
deriving DecidableEq, Repr

/-- a sequence of ingest calls against the store. -/
def Store.runOps (st : Store) (ops : List Op) : Store :=
  ops.foldl (fun a o => a.push_back o.key o.val o.width o.bars) st

/-- the keys of the store, in map order. -/
def Store.keys (st : Store) : List String := st.values.map Prod.fst

/-- every history is capped by `w`, and so is the shared `max_size`. -/
def Store.Bounded (w : Nat) (st : Store) : Prop :=
  (∀ p ∈ st.values, p.2.vec.length ≤ w) ∧ st.max_size ≤ w

/-- every history has length exactly `max_size` (the spec's alignment
property). -/
def Store.AllEq (st : Store) : Prop :=
  ∀ p ∈ st.values, p.2.vec.length = st.max_size

/-- every history is empty and `max_size` is 0 (the state before the
first screen-geometry computation). -/
def Store.AllEmpty (st : Store) : Prop :=
  (∀ p ∈ st.values, p.2.vec = []) ∧ st.max_size = 0

/-- the first loop iteration of `main` in one-value mode: `plotwidth` is
initialized to 0 (src/ttyplot.cpp:599), the first successfully read
sample is pushed with that value (src/ttyplot.cpp:730-739), and only
afterwards is `plotwidth` recomputed from the screen geometry
(src/ttyplot.cpp:842-854).  Returns the store and the new `plotwidth`. -/
def mainFirstIngestOne (v : ℚ) (bars : Bool) (screenwidth : Nat) : Store × Nat :=
  let st0 : Store := { values := [("1", values_t.mk0 "#")], max_size := 0 }
  let st1 := st0.push_back "1" v 0 bars
  (st1, screenwidth - 1)

/-- the one-value-mode rate pipeline: for each sample read, `push_back`
(src/ttyplot.cpp:730-739) followed by the rate loop over the single
series (src/ttyplot.cpp:800-818), starting from a fresh series and
`max_size = 0`. -/
def ingestRateSeq (xs : List ℚ) (w : Nat) (td : ℚ) : values_t × Nat :=
  xs.foldl (fun a x =>
    let r := a.1.push_back x w false a.2
    (r.1.rate td, r.2)) (values_t.mk0 "#", 0)

/-- history length a series reaches when `values_t::push_back` appends to
a history of length `M` with plot width `w` (one element is evicted when
the cap is exceeded). -/
def stepLen (w M : Nat) : Nat := if w < M + 1 then M else M + 1

/-- a concrete aligned two-series store (both histories at length
`max_size = 1`), used to exercise the key/value alignment property. -/
def c2wStore : Store :=
  { values := [("a", { vec := [1], name := "a", did_push_back := true }),
               ("b", { vec := [2], name := "b", did_push_back := true })],
    max_size := 1 }

/-- the end-to-end key/value scenario of the spec: cycles `cpu=50`, then
`mem=30 cpu=60` (line order as written), then `cpu=70`, at plot width
`w`. -/
def c8run (w : Nat) : Store :=
  ((Store.empty.kvCycle [("cpu", 50)] w false).kvCycle
    [("mem", 30), ("cpu", 60)] w false).kvCycle [("cpu", 70)] w false

/-- mid-cycle state of a key/value ingest cycle that started with every
history at length `M` and `max_size = M`: flagged series have advanced to
length `M'`, unflagged ones still have length `M`, and `max_size` is `M`
until the first push of the cycle and `M'` afterwards. -/
def CycleInv (K : List String) (M M' : Nat) (st : Store) : Prop :=
  st.keys = K ∧
  (∀ p ∈ st.values,
    (p.2.did_push_back = true → p.2.vec.length = M') ∧
    (p.2.did_push_back = false → p.2.vec.length = M)) ∧
  (st.max_size = M ∨ st.max_size = M') ∧
  (st.max_size = M' ∨ ∀ p ∈ st.values, p.2.did_push_back = false)

/-! ### Helper lemmas about the embedded operations -/

theorem DOUBLE_MAX_eq_pow : DOUBLE_MAX = 2 ^ 128 - 2 ^ 104 := by
  norm_num [DOUBLE_MAX]

theorem lookupS_mem {l : List (String × values_t)} {s : String} {v : values_t}
    (h : lookupS l s = some v) : (s, v) ∈ l := by
  induction l with
  | nil => simp [lookupS] at h
  | cons p rest ih =>
    rw [lookupS] at h
    split at h
    · rename_i hp
      cases h
      obtain ⟨a, b⟩ := p
      cases hp
      exact List.mem_cons_self _ _
    · exact List.mem_cons_of_mem _ (ih h)

theorem lookupS_isSome_of_mem {l : List (String × values_t)} {s : String}
    (h : s ∈ l.map Prod.fst) : ∃ v, lookupS l s = some v := by
  induction l with
  | nil => simp at h
  | cons p rest ih =>
    rw [lookupS]
    by_cases hp : p.1 = s
    · exact ⟨p.2, by simp [hp]⟩
    · rcases List.mem_map.mp h with ⟨q, hq, hq1⟩
      rcases List.mem_cons.mp hq with rfl | hq2
      · exact absurd hq1 hp
      · simpa [hp] using ih (List.mem_map.mpr ⟨q, hq2, hq1⟩)

theorem mem_insertSorted {l : List (String × values_t)} {s : String} {v : values_t}
    {q : String × values_t} (h : q ∈ insertSorted l s v) : q ∈ l ∨ q = (s, v) := by
  induction l with
  | nil => simp [insertSorted] at h; right; exact h
  | cons p rest ih =>
    rw [insertSorted] at h
    split at h
    · rcases List.mem_cons.mp h with rfl | h2
      · right; rfl
      · left; exact h2
    · rcases List.mem_cons.mp h with rfl | h2
      · left; exact List.mem_cons_self _ _
      · rcases ih h2 with h3 | h3
        · left; exact List.mem_cons_of_mem _ h3
        · right; exact h3

theorem foldl_preserve {α : Type} (P : Store → Prop) {f : Store → α → Store}
    (hf : ∀ st a, P st → P (f st a)) :
    ∀ (l : List α) (st : Store), P st → P (l.foldl f st) := by
  intro l
  induction l with
  | nil => intro st h; simpa using h
  | cons a rest ih => intro st h; simpa using ih (f st a) (hf st a h)

theorem le_foldl_qmaxf (l : List ℚ) (a : ℚ) : a ≤ l.foldl qmaxf a := by
  induction l generalizing a with
  | nil => simp
  | cons x l ih =>
    refine le_trans ?_ (ih (qmaxf a x))
    unfold qmaxf
    split
    · linarith
    · exact le_refl a

theorem mem_le_foldl_qmaxf {x : ℚ} {l : List ℚ} (h : x ∈ l) (a : ℚ) :
    x ≤ l.foldl qmaxf a := by
  induction l generalizing a with
  | nil => cases h
  | cons y l ih =>
    rcases List.mem_cons.mp h with rfl | hm
    · refine le_trans ?_ (le_foldl_qmaxf l (qmaxf a x))
      unfold qmaxf
      split
      · exact le_refl x
      · linarith [not_lt.mp (by assumption : ¬ a < x)]
    · exact ih hm (qmaxf a y)

theorem foldl_qmaxf_lt {c : ℚ} {l : List ℚ} {a : ℚ} (ha : a < c)
    (h : ∀ x ∈ l, x < c) : l.foldl qmaxf a < c := by
  induction l generalizing a with
  | nil => simpa using ha
  | cons y l ih =>
    rw [List.foldl_cons]
    refine ih ?_ (fun x hx => h x (List.mem_cons_of_mem _ hx))
    unfold qmaxf
    split
    · exact h y (List.mem_cons_self _ _)
    · exact ha

theorem foldl_qminf_le (l : List ℚ) (a : ℚ) : l.foldl qminf a ≤ a := by
  induction l generalizing a with
  | nil => simp
  | cons x l ih =>
    refine le_trans (ih (qminf a x)) ?_
    unfold qminf
    split
    · linarith
    · exact le_refl a

theorem foldl_qminf_le_mem {x : ℚ} {l : List ℚ} (h : x ∈ l) (a : ℚ) :
    l.foldl qminf a ≤ x := by
  induction l generalizing a with
  | nil => cases h
  | cons y l ih =>
    rcases List.mem_cons.mp h with rfl | hm
    · refine le_trans (foldl_qminf_le l (qminf a x)) ?_
      unfold qminf
      split
      · exact le_refl x
      · linarith [not_lt.mp (by assumption : ¬ x < a)]
    · exact ih hm (qminf a y)

theorem lt_foldl_qminf {c : ℚ} {l : List ℚ} {a : ℚ} (ha : c < a)
    (h : ∀ x ∈ l, c < x) : c < l.foldl qminf a := by
  induction l generalizing a with
  | nil => simpa using ha
  | cons y l ih =>
    rw [List.foldl_cons]
    refine ih ?_ (fun x hx => h x (List.mem_cons_of_mem _ hx))
    unfold qminf
    split
    · exact h y (List.mem_cons_self _ _)
    · exact ha

theorem rate_eq (v : values_t) (td : ℚ) (l : List ℚ) (c : ℚ)
    (hvec : v.vec = l ++ [c]) (hl : l ≠ []) :
    v.rate td = { v with
      vec := l ++ [(if 0xffffff00 ≤ v.pval ∧ 0 ≤ c ∧ c < 0xff then c + (v.pval - 0xffffff00)
        else if 0x7fffff00 ≤ v.pval ∧ v.pval ≤ 0x7fffffff ∧ 0 ≤ c ∧ c < 0xff then
          c + (v.pval - 0x7fffff00)
        else c - v.pval) / td],
      pval := c } := by
  have hgl : v.vec.getLastD 0 = c := by rw [hvec]; exact List.getLastD_concat _ _ _
  have hdl : v.vec.dropLast = l := by rw [hvec]; exact List.dropLast_concat ..
  rcases hm : v.vec with _ | ⟨a, _ | ⟨b, rest⟩⟩
  · exfalso
    rw [hm] at hvec
    exact List.append_ne_nil_of_right_ne_nil l (by simp) hvec.symm
  · exfalso
    have hlen := congrArg List.length (hvec.symm.trans hm)
    simp at hlen
    exact hl hlen
  · have hgl2 : (a :: b :: rest).getLastD 0 = c := hm ▸ hgl
    have hdl2 : (a :: b :: rest).dropLast = l := hm ▸ hdl
    simp only [values_t.rate]
    rw [hm]
    simp only []
    rw [hgl2, hdl2]

theorem store_push_back_cases (st : Store) (s : String) (v : ℚ) (w : Nat) (b : Bool) :
    (s = "" ∧ st.push_back s v w b = st) ∨
    (∃ val, lookupS st.values s = some val ∧
      st.push_back s v w b =
        { values := st.values.map
            (fun p => if p.1 = s then (p.1, (val.push_back v w b st.max_size).1) else p),
          max_size := (val.push_back v w b st.max_size).2 }) ∨
    (lookupS st.values s = none ∧ s ≠ "" ∧
      st.push_back s v w b =
        { values := insertSorted st.values s ((values_t.mk0 s).push_back v w b st.max_size).1,
          max_size := ((values_t.mk0 s).push_back v w b st.max_size).2 }) := by
  by_cases hs : s = ""
  · left; exact ⟨hs, by simp [Store.push_back, hs]⟩
  · cases hl : lookupS st.values s with
    | none => right; right; exact ⟨rfl, hs, by simp [Store.push_back, hs, hl]⟩
    | some val => right; left; exact ⟨val, rfl, by simp [Store.push_back, hs, hl]⟩

theorem store_padOne_cases (st : Store) (n : String) (w : Nat) (b : Bool) :
    (st.padOne n w b = st) ∨
    (∃ val, lookupS st.values n = some val ∧ val.did_push_back = false ∧
      st.padOne n w b =
        { values := st.values.map
            (fun p => if p.1 = n then
              (p.1, (val.push_back DOUBLE_UNINIT w b st.max_size).1) else p),
          max_size := (val.push_back DOUBLE_UNINIT w b st.max_size).2 }) := by
  cases hl : lookupS st.values n with
  | none => left; simp [Store.padOne, hl]
  | some val =>
    by_cases hf : val.did_push_back
    · left; simp [Store.padOne, hl, hf]
    · right; exact ⟨val, rfl, by simpa using hf, by simp [Store.padOne, hl, hf]⟩

theorem store_padOne_cases3 (st : Store) (n : String) (w : Nat) (b : Bool) :
    (lookupS st.values n = none ∧ st.padOne n w b = st) ∨
    (∃ val, lookupS st.values n = some val ∧ val.did_push_back = true ∧
      st.padOne n w b = st) ∨
    (∃ val, lookupS st.values n = some val ∧ val.did_push_back = false ∧
      st.padOne n w b =
        { values := st.values.map
            (fun p => if p.1 = n then
              (p.1, (val.push_back DOUBLE_UNINIT w b st.max_size).1) else p),
          max_size := (val.push_back DOUBLE_UNINIT w b st.max_size).2 }) := by
  cases hl : lookupS st.values n with
  | none => left; exact ⟨rfl, by simp [Store.padOne, hl]⟩
  | some val =>
    by_cases hf : val.did_push_back
    · right; left; exact ⟨val, rfl, by simpa using hf, by simp [Store.padOne, hl, hf]⟩
    · right; right
      exact ⟨val, rfl, by simpa using hf, by simp [Store.padOne, hl, hf]⟩

theorem values_push_zero {val : values_t} (hv : val.vec = []) (c : ℚ) (b : Bool) :
    (val.push_back c 0 b 0).1.vec = [] ∧ (val.push_back c 0 b 0).2 = 0 := by
  simp [values_t.push_back, hv]

theorem store_push_zero {st : Store} (s : String) (v : ℚ) (b : Bool) (h : st.AllEmpty) :
    (st.push_back s v 0 b).AllEmpty := by
  obtain ⟨hall, hms⟩ := h
  rcases store_push_back_cases st s v 0 b with ⟨-, heq⟩ | ⟨val, hl, heq⟩ | ⟨hl, hs, heq⟩
  · rw [heq]; exact ⟨hall, hms⟩
  · have hp : (val.push_back v 0 b st.max_size).1.vec = [] ∧
        (val.push_back v 0 b st.max_size).2 = 0 := by
      rw [hms]; exact values_push_zero (hall _ (lookupS_mem hl)) v b
    rw [heq]
    refine ⟨?_, hp.2⟩
    intro p hp2
    rcases List.mem_map.mp hp2 with ⟨q, hq, rfl⟩
    by_cases hq1 : q.1 = s
    · simp only [if_pos hq1]; exact hp.1
    · simp only [if_neg hq1]; exact hall _ hq
  · have hp : ((values_t.mk0 s).push_back v 0 b st.max_size).1.vec = [] ∧
        ((values_t.mk0 s).push_back v 0 b st.max_size).2 = 0 := by
      rw [hms]; exact values_push_zero rfl v b
    rw [heq]
    refine ⟨?_, hp.2⟩
    intro p hp2
    rcases mem_insertSorted hp2 with hq | rfl
    · exact hall _ hq
    · exact hp.1

theorem store_padOne_zero {st : Store} (n : String) (w0 : Nat) (b : Bool)
    (h : st.AllEmpty) (hw : w0 = 0) : (st.padOne n w0 b).AllEmpty := by
  subst hw
  obtain ⟨hall, hms⟩ := h
  rcases store_padOne_cases st n 0 b with heq | ⟨val, hl, hf, heq⟩
  · rw [heq]; exact ⟨hall, hms⟩
  · have hp : (val.push_back DOUBLE_UNINIT 0 b st.max_size).1.vec = [] ∧
        (val.push_back DOUBLE_UNINIT 0 b st.max_size).2 = 0 := by
      rw [hms]; exact values_push_zero (hall _ (lookupS_mem hl)) _ b
    rw [heq]
    refine ⟨?_, hp.2⟩
    intro p hp2
    rcases List.mem_map.mp hp2 with ⟨q, hq, rfl⟩
    by_cases hq1 : q.1 = n
    · simp only [if_pos hq1]; exact hp.1
    · simp only [if_neg hq1]; exact hall _ hq

theorem clearFlags_AllEmpty {st : Store} (h : st.AllEmpty) : st.clearFlags.AllEmpty := by
  obtain ⟨hall, hms⟩ := h
  refine ⟨?_, hms⟩
  intro p hp
  rcases List.mem_map.mp hp with ⟨q, hq, rfl⟩
  exact hall q hq

theorem kvCycle_zero {st : Store} (pairs : List (String × ℚ)) (b : Bool)
    (h : st.AllEmpty) : (st.kvCycle pairs 0 b).AllEmpty := by
  rw [Store.kvCycle]
  refine foldl_preserve Store.AllEmpty ?_ _ _
    (foldl_preserve Store.AllEmpty ?_ _ _ (clearFlags_AllEmpty h))
  · intro st2 a h2; exact store_padOne_zero a 0 b h2 rfl
  · intro st2 kv h2; exact store_push_zero kv.1 kv.2 b h2

theorem values_push_bounded {w0 w : Nat} {val : values_t} {ms : Nat}
    (hv : val.vec.length ≤ w0) (hms : ms ≤ w0) (hw : w0 ≤ w) (c : ℚ) (b : Bool) :
    (val.push_back c w b ms).1.vec.length ≤ w ∧ (val.push_back c w b ms).2 ≤ w := by
  simp only [values_t.push_back, List.length_append, List.length_replicate, List.length_tail]
  split_ifs <;> simp_all <;> omega

theorem store_push_bounded {w0 w : Nat} {st : Store} (h : st.Bounded w0) (hw : w0 ≤ w)
    (s : String) (v : ℚ) (b : Bool) : (st.push_back s v w b).Bounded w := by
  obtain ⟨hall, hms⟩ := h
  rcases store_push_back_cases st s v w b with ⟨-, heq⟩ | ⟨val, hl, heq⟩ | ⟨hl, hs, heq⟩
  · rw [heq]; exact ⟨fun p hp => le_trans (hall p hp) hw, le_trans hms hw⟩
  · have hb := values_push_bounded (hall _ (lookupS_mem hl)) hms hw v b
    rw [heq]
    refine ⟨?_, hb.2⟩
    intro p hp
    rcases List.mem_map.mp hp with ⟨q, hq, rfl⟩
    by_cases hq1 : q.1 = s
    · simp only [if_pos hq1]; exact hb.1
    · simp only [if_neg hq1]; exact le_trans (hall _ hq) hw
  · have hb := values_push_bounded (show (values_t.mk0 s).vec.length ≤ w0 by
      simp [values_t.mk0]) hms hw v b
    rw [heq]
    refine ⟨?_, hb.2⟩
    intro p hp
    rcases mem_insertSorted hp with hq | rfl
    · exact le_trans (hall _ hq) hw
    · exact hb.1

theorem runOps_bounded_aux : ∀ (ops : List Op) (st : Store) (w0 : Nat),
    st.Bounded w0 → List.Chain (· ≤ ·) w0 (ops.map Op.width) →
    (st.runOps ops).Bounded ((ops.map Op.width).getLastD w0) := by
  intro ops
  induction ops with
  | nil => intro st w0 hb hch; simpa [Store.runOps] using hb
  | cons o rest ih =>
    intro st w0 hb hch
    rw [List.map_cons, List.chain_cons] at hch
    have H := ih (st.push_back o.key o.val o.width o.bars) o.width
      (store_push_bounded hb hch.1 _ _ _) hch.2
    have hgl : ((o :: rest).map Op.width).getLastD w0 = (rest.map Op.width).getLastD o.width := by
      rw [List.map_cons, List.getLastD_cons]
    rw [Store.runOps, List.foldl_cons, hgl]
    exact H

theorem lookupS_none_not_mem {l : List (String × values_t)} {s : String}
    (h : lookupS l s = none) : s ∉ l.map Prod.fst := by
  intro hmem
  rcases lookupS_isSome_of_mem hmem with ⟨v, hv⟩
  rw [h] at hv
  cases hv

theorem lookupS_of_mem_nodup {l : List (String × values_t)}
    (hnd : (l.map Prod.fst).Nodup) {p : String × values_t} (hp : p ∈ l) :
    lookupS l p.1 = some p.2 := by
  induction l with
  | nil => cases hp
  | cons q rest ih =>
    rw [List.map_cons] at hnd
    have hnd2 := List.nodup_cons.mp hnd
    rw [lookupS]
    rcases List.mem_cons.mp hp with rfl | hp2
    · rw [if_pos rfl]
    · have hq1 : ¬ (q.1 = p.1) := by
        intro hcon
        exact hnd2.1 (hcon ▸ List.mem_map.mpr ⟨p, hp2, rfl⟩)
      rw [if_neg hq1]
      exact ih hnd2.2 hp2

theorem map_update_keys (l : List (String × values_t)) (s : String) (x : values_t) :
    (l.map (fun p => if p.1 = s then (p.1, x) else p)).map Prod.fst = l.map Prod.fst := by
  rw [List.map_map]
  congr 1
  funext p
  by_cases h : p.1 = s <;> simp [h]

theorem values_push_at_inv {w M ms : Nat} {val : values_t} (hlen : val.vec.length = M)
    (hms : ms = M ∨ ms = stepLen w M) (c : ℚ) (b : Bool) :
    (val.push_back c w b ms).1.vec.length = stepLen w M ∧
    (val.push_back c w b ms).2 = stepLen w M ∧
    (val.push_back c w b ms).1.did_push_back = true := by
  have hms3 : ms = M ∨ (ms = M + 1 ∧ ¬ w < M + 1) := by
    rcases hms with rfl | rfl
    · left; rfl
    · by_cases hw : w < M + 1
      · left; rw [stepLen, if_pos hw]
      · right; exact ⟨by rw [stepLen, if_neg hw], hw⟩
  refine ⟨?_, ?_, rfl⟩ <;>
  · simp only [values_t.push_back, stepLen]
    split_ifs <;>
      simp only [List.length_tail, List.length_append, List.length_replicate,
        List.length_singleton, hlen] at * <;>
      omega

theorem cycle_push_any {K : List String} {M M' w : Nat} {st : Store}
    (hinv : CycleInv K M M' st) (hM' : M' = stepLen w M)
    (s : String) (hk : s ∈ K)
    (hunf : ∀ p ∈ st.values, p.1 = s → p.2.did_push_back = false)
    (v : ℚ) (b : Bool) :
    CycleInv K M M' (st.push_back s v w b) ∧
    (∀ p ∈ (st.push_back s v w b).values, p.1 ≠ s → p ∈ st.values) := by
  obtain ⟨hkeys, hent, hms, hflag⟩ := hinv
  rcases store_push_back_cases st s v w b with ⟨hs, heq⟩ | ⟨val, hl, heq⟩ | ⟨hl, hs, heq⟩
  · rw [heq]; exact ⟨⟨hkeys, hent, hms, hflag⟩, fun p hp _ => hp⟩
  · have hvmem := lookupS_mem hl
    have hvflag : val.did_push_back = false := hunf _ hvmem rfl
    have hvlen : val.vec.length = M := (hent _ hvmem).2 hvflag
    have hmsOr : st.max_size = M ∨ st.max_size = stepLen w M := by
      rcases hms with h | h
      · left; exact h
      · right; rw [← hM']; exact h
    have hstep := values_push_at_inv hvlen hmsOr v b
    rw [heq]
    refine ⟨⟨?_, ?_, ?_, ?_⟩, ?_⟩
    · show (st.values.map _).map Prod.fst = K
      rw [map_update_keys]; exact hkeys
    · intro p hp
      rcases List.mem_map.mp hp with ⟨q, hq, rfl⟩
      by_cases hq1 : q.1 = s
      · simp only [if_pos hq1]
        refine ⟨fun _ => by rw [hM']; exact hstep.1, fun hcon => ?_⟩
        rw [hstep.2.2] at hcon
        cases hcon
      · simp only [if_neg hq1]
        exact hent _ hq
    · right; rw [hM']; exact hstep.2.1
    · left; rw [hM']; exact hstep.2.1
    · intro p hp hne
      rcases List.mem_map.mp hp with ⟨q, hq, rfl⟩
      by_cases hq1 : q.1 = s
      · exfalso
        apply hne
        simp [if_pos hq1, hq1]
      · simpa [if_neg hq1] using hq
  · exfalso
    have hsk : s ∈ st.values.map Prod.fst := by
      have : s ∈ st.keys := hkeys ▸ hk
      exact this
    rcases lookupS_isSome_of_mem hsk with ⟨val, hsome⟩
    rw [hl] at hsome
    cases hsome

theorem pushAll_inv {K : List String} {M M' w : Nat} (b : Bool) :
    ∀ (pairs : List (String × ℚ)) (st : Store),
    CycleInv K M M' st → M' = stepLen w M →
    (∀ k ∈ pairs.map Prod.fst, k ∈ K) →
    (pairs.map Prod.fst).Nodup →
    (∀ k ∈ pairs.map Prod.fst, ∀ p ∈ st.values, p.1 = k → p.2.did_push_back = false) →
    CycleInv K M M' (pairs.foldl (fun a kv => a.push_back kv.1 kv.2 w b) st) := by
  intro pairs
  induction pairs with
  | nil => intro st hinv _ _ _ _; simpa using hinv
  | cons kv rest ih =>
    intro st hinv hM' hkeys hnd hunf
    rw [List.foldl_cons]
    rw [List.map_cons] at hnd hkeys hunf
    have hnd2 := List.nodup_cons.mp hnd
    have hstep := cycle_push_any hinv hM' kv.1 (hkeys _ (List.mem_cons_self _ _))
      (hunf kv.1 (List.mem_cons_self _ _)) kv.2 b
    refine ih _ hstep.1 hM' (fun k hk => hkeys k (List.mem_cons_of_mem _ hk)) hnd2.2 ?_
    intro k hk p hp hp1
    have hkne : k ≠ kv.1 := by
      intro hcon
      exact hnd2.1 (hcon ▸ hk)
    have hpm : p ∈ st.values := hstep.2 p hp (by rw [hp1]; exact hkne)
    exact hunf k (List.mem_cons_of_mem _ hk) p hpm hp1

theorem cycle_padOne {K : List String} {M M' w : Nat} {st : Store}
    (hinv : CycleInv K M M' st) (hM' : M' = stepLen w M) (hnd : K.Nodup)
    (n : String) (b : Bool) :
    CycleInv K M M' (st.padOne n w b) ∧
    (∀ p ∈ (st.padOne n w b).values, p.1 = n → p.2.did_push_back = true) ∧
    (∀ t, (∀ p ∈ st.values, p.1 = t → p.2.did_push_back = true) →
      ∀ q ∈ (st.padOne n w b).values, q.1 = t → q.2.did_push_back = true) := by
  obtain ⟨hkeys, hent, hms, hflag⟩ := hinv
  have hndv : (st.values.map Prod.fst).Nodup := by
    have : st.keys = K := hkeys
    rw [Store.keys] at this
    rw [this]
    exact hnd
  rcases store_padOne_cases3 st n w b with ⟨hl, heq⟩ | ⟨val, hl, hf, heq⟩ |
    ⟨val, hl, hf, heq⟩
  · rw [heq]
    refine ⟨⟨hkeys, hent, hms, hflag⟩, ?_, fun t ht => ht⟩
    intro p hp hp1
    exfalso
    exact lookupS_none_not_mem hl (hp1 ▸ List.mem_map.mpr ⟨p, hp, rfl⟩)
  · rw [heq]
    refine ⟨⟨hkeys, hent, hms, hflag⟩, ?_, fun t ht => ht⟩
    intro p hp hp1
    have hlp : lookupS st.values p.1 = some p.2 := lookupS_of_mem_nodup hndv hp
    rw [hp1, hl] at hlp
    cases hlp
    exact hf
  · have hvmem := lookupS_mem hl
    have hvlen : val.vec.length = M := (hent _ hvmem).2 hf
    have hmsOr : st.max_size = M ∨ st.max_size = stepLen w M := by
      rcases hms with h | h
      · left; exact h
      · right; rw [← hM']; exact h
    have hstep := values_push_at_inv hvlen hmsOr DOUBLE_UNINIT b
    rw [heq]
    refine ⟨⟨?_, ?_, ?_, ?_⟩, ?_, ?_⟩
    · show (st.values.map _).map Prod.fst = K
      rw [map_update_keys]; exact hkeys
    · intro p hp
      rcases List.mem_map.mp hp with ⟨q, hq, rfl⟩
      by_cases hq1 : q.1 = n
      · simp only [if_pos hq1]
        refine ⟨fun _ => by rw [hM']; exact hstep.1, fun hcon => ?_⟩
        rw [hstep.2.2] at hcon
        cases hcon
      · simp only [if_neg hq1]
        exact hent _ hq
    · right; rw [hM']; exact hstep.2.1
    · left; rw [hM']; exact hstep.2.1
    · intro p hp hp1
      rcases List.mem_map.mp hp with ⟨q, hq, rfl⟩
      by_cases hq1 : q.1 = n
      · simp only [if_pos hq1]
        exact hstep.2.2
      · exfalso
        apply hq1
        simpa [if_neg hq1] using hp1
    · intro t ht q hq hq1
      rcases List.mem_map.mp hq with ⟨q0, hq0, rfl⟩
      by_cases hq2 : q0.1 = n
      · simp only [if_pos hq2]
        exact hstep.2.2
      · simp only [if_neg hq2]
        exact ht q0 hq0 (by simpa [if_neg hq2] using hq1)

theorem padAll_go {K : List String} {M M' w : Nat} (b : Bool) :
    ∀ (N : List String) (st : Store), CycleInv K M M' st → M' = stepLen w M → K.Nodup →
    CycleInv K M M' (N.foldl (fun a n => a.padOne n w b) st) ∧
    (∀ t, (∀ p ∈ st.values, p.1 = t → p.2.did_push_back = true) →
      ∀ q ∈ (N.foldl (fun a n => a.padOne n w b) st).values, q.1 = t →
        q.2.did_push_back = true) ∧
    (∀ t ∈ N, ∀ q ∈ (N.foldl (fun a n => a.padOne n w b) st).values, q.1 = t →
      q.2.did_push_back = true) := by
  intro N
  induction N with
  | nil =>
    intro st hinv _ _
    exact ⟨by simpa using hinv, fun t ht => by simpa using ht, by simp⟩
  | cons n N2 ih =>
    intro st hinv hM' hnd
    rw [List.foldl_cons]
    have hstep := cycle_padOne hinv hM' hnd n b
    have hih := ih (st.padOne n w b) hstep.1 hM' hnd
    refine ⟨hih.1, ?_, ?_⟩
    · intro t ht
      exact hih.2.1 t (hstep.2.2 t ht)
    · intro t ht
      rcases List.mem_cons.mp ht with rfl | ht2
      · exact hih.2.1 t hstep.2.1
      · exact hih.2.2 t ht2

/-! ### The claims -/

/-- C1, counterexample: three ingests into one series with plot widths
2, 2, 1 leave the history at length 2 immediately after the third
ingest, exceeding the plotWidth 1 supplied to that ingest:
`values_t::push_back` evicts only one element per call, so a shrinking
plot width violates the claimed invariant at the moment of the check. -/
theorem C1_counterexample :
    ((Store.runOps Store.empty
        [⟨"1", 1, 2, false⟩, ⟨"1", 2, 2, false⟩, ⟨"1", 3, 1, false⟩]).values.map
      (fun p => p.2.vec.length)) = [2] ∧ ¬ (2 ≤ 1) := by
  constructor
  · simp +decide [Store.runOps, Store.push_back, values_t.push_back, values_t.mk0,
      lookupS, insertSorted, Store.empty]
  · omega

/-- C1, amended: for every sequence of ingests whose plotWidth arguments
never decrease (`List.Chain (· ≤ ·) 0` over the widths), every series'
history length after the run is at most the plotWidth of the last
ingest.  Applying this theorem to each prefix of the operation list
gives the bound at the moment of every check. -/
theorem C1_capacity (ops : List Op)
    (hmono : List.Chain (· ≤ ·) 0 (ops.map Op.width)) :
    ∀ p ∈ (Store.runOps Store.empty ops).values,
      p.2.vec.length ≤ (ops.map Op.width).getLastD 0 := by
  have hb : Store.empty.Bounded 0 := ⟨by simp [Store.empty], le_refl 0⟩
  exact (runOps_bounded_aux ops Store.empty 0 hb hmono).1

/-- C1, witness: a concrete nondecreasing-width run satisfying the
hypothesis, with the bound it yields. -/
theorem C1_witness :
    List.Chain (· ≤ ·) 0 (([⟨"1", 1, 2, false⟩, ⟨"1", 2, 3, false⟩] : List Op).map Op.width) ∧
    ∀ p ∈ (Store.runOps Store.empty [⟨"1", 1, 2, false⟩, ⟨"1", 2, 3, false⟩]).values,
      p.2.vec.length ≤
        (([⟨"1", 1, 2, false⟩, ⟨"1", 2, 3, false⟩] : List Op).map Op.width).getLastD 0 :=
  ⟨by simp [List.chain_cons], C1_capacity [⟨"1", 1, 2, false⟩, ⟨"1", 2, 3, false⟩]
    (by simp [List.chain_cons])⟩

/-- C2, counterexample: in key/value mode with constant plot width 3,
cycle one ingests `a 1`, cycle two ingests `b 5 a 9` (new key `b`
listed before the existing key `a`).  After this complete cycle, series
`a` has history length 2 while `b` has length 1, and
`max_size = 2`: series `b` lags, so histories do not all equal
`maxHistoryLength` after a complete cycle. -/
theorem C2_counterexample :
    ((Store.empty.kvCycle [("a", 1)] 3 false).kvCycle [("b", 5), ("a", 9)] 3 false).values.map
        (fun p => (p.1, p.2.vec.length)) = [("a", 2), ("b", 1)] ∧
    ((Store.empty.kvCycle [("a", 1)] 3 false).kvCycle [("b", 5), ("a", 9)] 3
        false).max_size = 2 ∧
    (1 : Nat) ≠ 2 := by
  have hba : ¬ (("b" : String) < "a") := by
    simp
    decide
  refine ⟨?_, ?_, by omega⟩ <;>
    simp +decide [Store.kvCycle, Store.empty, Store.push_back, Store.clearFlags,
      Store.padAll, Store.padOne, lookupS, insertSorted, values_t.push_back, values_t.mk0,
      Store.keys, eq_false hba]

set_option maxHeartbeats 2000000 in
/-- C2, amended: after a complete key/value ingest cycle, every series'
history length equals `max_size` (`SeriesStore.maxHistoryLength`),
provided every parsed key names an existing series, no key repeats
within the cycle, and at the start of the cycle every history length
already equals `max_size` (this aligned state is therefore preserved
from cycle to cycle).  Without these provisos the code violates the
claim (see the counterexample: a series created mid-cycle before an
existing key is pushed pads only to the stale `max_size`). -/
theorem C2_alignment (st : Store) (pairs : List (String × ℚ)) (w : Nat) (b : Bool)
    (hAll : st.AllEq) (hkeys : ∀ k ∈ pairs.map Prod.fst, k ∈ st.keys)
    (hnd : (pairs.map Prod.fst).Nodup) (hK : st.keys.Nodup) :
    (st.kvCycle pairs w b).AllEq := by
  have hclear : CycleInv st.keys st.max_size (stepLen w st.max_size) st.clearFlags := by
    refine ⟨?_, ?_, Or.inl rfl, Or.inr ?_⟩
    · show (st.values.map _).map Prod.fst = st.keys
      rw [List.map_map]
      rfl
    · intro p hp
      rcases List.mem_map.mp hp with ⟨q, hq, rfl⟩
      constructor
      · intro hcon
        exact absurd hcon (by simp)
      · intro h2
        exact hAll q hq
    · intro p hp
      rcases List.mem_map.mp hp with ⟨q, hq, rfl⟩
      rfl
  have hunf0 : ∀ k ∈ pairs.map Prod.fst, ∀ p ∈ st.clearFlags.values, p.1 = k →
      p.2.did_push_back = false := by
    intro k _ p hp _
    rcases List.mem_map.mp hp with ⟨q, hq, rfl⟩
    rfl
  have hpush := pushAll_inv b pairs st.clearFlags hclear rfl hkeys hnd hunf0
  show ((pairs.foldl (fun a kv => a.push_back kv.1 kv.2 w b) st.clearFlags).padAll w b).AllEq
  show Store.AllEq
    (((pairs.foldl (fun a kv => a.push_back kv.1 kv.2 w b) st.clearFlags).values.map
        Prod.fst).foldl (fun a n => a.padOne n w b)
      (pairs.foldl (fun a kv => a.push_back kv.1 kv.2 w b) st.clearFlags))
  have hpad := padAll_go b
    ((pairs.foldl (fun a kv => a.push_back kv.1 kv.2 w b) st.clearFlags).values.map Prod.fst)
    (pairs.foldl (fun a kv => a.push_back kv.1 kv.2 w b) st.clearFlags)
    hpush rfl hK
  obtain ⟨⟨hkeys2, hent2, hms2, hflag2⟩, htrans, hallpad⟩ := hpad
  intro p hp
  have hp1 : p.1 ∈ (pairs.foldl (fun a kv => a.push_back kv.1 kv.2 w b)
      st.clearFlags).values.map Prod.fst := by
    have h1 : p.1 ∈ st.keys := hkeys2 ▸ List.mem_map.mpr ⟨p, hp, rfl⟩
    have h2 := hpush.1
    rw [Store.keys] at h2
    rw [h2]
    exact h1
  have hflagp : p.2.did_push_back = true := hallpad p.1 hp1 p hp rfl
  have hlen : p.2.vec.length = stepLen w st.max_size := (hent2 p hp).1 hflagp
  have hmsf : (((pairs.foldl (fun a kv => a.push_back kv.1 kv.2 w b)
      st.clearFlags).values.map Prod.fst).foldl (fun a n => a.padOne n w b)
      (pairs.foldl (fun a kv => a.push_back kv.1 kv.2 w b) st.clearFlags)).max_size =
      stepLen w st.max_size := by
    rcases hflag2 with h | h
    · exact h
    · have h3 := h p hp
      rw [hflagp] at h3
      cases h3
  rw [hlen, hmsf]

/-- C2, witness: a concrete aligned two-series store run through a
concrete cycle, with every hypothesis discharged. -/
theorem C2_witness :
    c2wStore.AllEq ∧
    (∀ k ∈ ([("a", (3 : ℚ)), ("b", 4)].map Prod.fst), k ∈ c2wStore.keys) ∧
    ([("a", (3 : ℚ)), ("b", 4)].map Prod.fst).Nodup ∧
    c2wStore.keys.Nodup ∧
    (c2wStore.kvCycle [("a", 3), ("b", 4)] 5 false).AllEq := by
  have h1 : c2wStore.AllEq := by
    intro p hp
    rcases List.mem_cons.mp hp with rfl | hp2
    · rfl
    · rcases List.mem_cons.mp hp2 with rfl | hp3
      · rfl
      · cases hp3
  have h2 : ∀ k ∈ ([("a", (3 : ℚ)), ("b", 4)].map Prod.fst), k ∈ c2wStore.keys := by
    intro k hk
    rcases List.mem_cons.mp hk with rfl | hk2
    · simp [c2wStore, Store.keys]
    · rcases List.mem_cons.mp hk2 with rfl | hk3
      · simp [c2wStore, Store.keys]
      · cases hk3
  have h3 : ([("a", (3 : ℚ)), ("b", 4)].map Prod.fst).Nodup := by
    simp
  have h4 : c2wStore.keys.Nodup := by
    simp [c2wStore, Store.keys]
  exact ⟨h1, h2, h3, h4, C2_alignment c2wStore [("a", 3), ("b", 4)] 5 false h1 h2 h3 h4⟩

/-- C3: in rate mode, when `previousRaw` (`pval`) is at least 0xFFFFFF00
and the new sample `c` lies in [0, 0xFF), `values_t::rate` rewrites the
last entry to the reconstructed wraparound delta
`(c + (pval - 0xFFFFFF00)) / td`, which is non-negative for positive
intervals; analogously, when `pval` lies in [0x7FFFFF00, 0x7FFFFFFF]
and `c` in [0, 0xFF), the entry becomes `(c + (pval - 0x7FFFFF00)) / td`.
In both cases `pval` is updated to the raw sample. -/
theorem C3_rate_wraparound (s : values_t) (l : List ℚ) (c p td : ℚ)
    (hvec : s.vec = l ++ [c]) (hl : l ≠ []) (hp : s.pval = p) :
    (0xffffff00 ≤ p → 0 ≤ c → c < 0xff →
      (s.rate td).vec = l ++ [(c + (p - 0xffffff00)) / td] ∧ (s.rate td).pval = c ∧
      (0 < td → 0 ≤ (c + (p - 0xffffff00)) / td)) ∧
    (0x7fffff00 ≤ p → p ≤ 0x7fffffff → 0 ≤ c → c < 0xff →
      (s.rate td).vec = l ++ [(c + (p - 0x7fffff00)) / td] ∧ (s.rate td).pval = c ∧
      (0 < td → 0 ≤ (c + (p - 0x7fffff00)) / td)) := by
  rw [rate_eq s td l c hvec hl, hp]
  constructor
  · intro h1 h2 h3
    rw [if_pos ⟨h1, h2, h3⟩]
    exact ⟨rfl, rfl, fun htd => div_nonneg (by linarith) htd.le⟩
  · intro h1 h1b h2 h3
    have hne1 : ¬ (0xffffff00 ≤ p ∧ 0 ≤ c ∧ c < 0xff) := by
      rintro ⟨hcon, -, -⟩
      have : (0x7fffffff : ℚ) < 0xffffff00 := by norm_num
      linarith
    rw [if_neg hne1, if_pos ⟨h1, h1b, h2, h3⟩]
    exact ⟨rfl, rfl, fun htd => div_nonneg (by linarith) htd.le⟩

/-- C3, witness: `previousRaw = 0xFFFFFFF0`, new sample `5`, interval
1 s: the stored rate is 245, not a large negative value. -/
theorem C3_witness :
    (({ vec := [0, 5], pval := 0xfffffff0, name := "#" } : values_t).rate 1).vec =
      [0, (5 + (0xfffffff0 - 0xffffff00 : ℚ)) / 1] ∧
    (0 : ℚ) ≤ (5 + (0xfffffff0 - 0xffffff00 : ℚ)) / 1 ∧
    (5 + (0xfffffff0 - 0xffffff00 : ℚ)) / 1 = 245 := by
  have H := (C3_rate_wraparound { vec := [0, 5], pval := 0xfffffff0, name := "#" } [0] 5
    0xfffffff0 1 rfl (by simp) rfl).1 (by norm_num) (by norm_num) (by norm_num)
  exact ⟨H.1, H.2.2 (by norm_num), by norm_num⟩

/-- C4: `values_t::rate` on a one-entry history replaces the entry by 0
with no division and remembers the raw value in `pval`; on a longer
history with no overflow-correction triggered (`pval < 0x7FFFFF00`) the
last entry becomes `(current - previousRaw) / interval` and `pval` is
set to the raw sample; feeding the counter sequence [100, 200, 300,
400] through ingest-then-rate at interval 1 s yields the stored series
[0, 100, 100, 100] with `pval = 400`. -/
theorem C4_rate_increasing_counters :
    (∀ (s : values_t) (x td : ℚ), s.vec = [x] →
      (s.rate td).vec = [0] ∧ (s.rate td).pval = x) ∧
    (∀ (s : values_t) (l : List ℚ) (c p td : ℚ), s.vec = l ++ [c] → l ≠ [] →
      s.pval = p → p < 0x7fffff00 →
      (s.rate td).vec = l ++ [(c - p) / td] ∧ (s.rate td).pval = c) ∧
    ((ingestRateSeq [100, 200, 300, 400] 80 1).1.vec = [0, 100, 100, 100] ∧
      (ingestRateSeq [100, 200, 300, 400] 80 1).1.pval = 400) := by
  refine ⟨?_, ?_, ?_⟩
  · intro s x td hvec
    rw [values_t.rate]
    rw [hvec]
    exact ⟨rfl, rfl⟩
  · intro s l c p td hvec hl hp hsmall
    rw [rate_eq s td l c hvec hl, hp]
    have hne1 : ¬ (0xffffff00 ≤ p ∧ 0 ≤ c ∧ c < 0xff) := by
      rintro ⟨hcon, -, -⟩
      have : (0x7fffff00 : ℚ) < 0xffffff00 := by norm_num
      linarith
    have hne2 : ¬ (0x7fffff00 ≤ p ∧ p ≤ 0x7fffffff ∧ 0 ≤ c ∧ c < 0xff) := by
      rintro ⟨hcon, -⟩
      exact absurd hcon (not_le.mpr hsmall)
    rw [if_neg hne1, if_neg hne2]
    exact ⟨rfl, rfl⟩
  · constructor <;>
      norm_num [ingestRateSeq, values_t.push_back, values_t.rate, values_t.mk0,
        DOUBLE_UNINIT, DOUBLE_MIN, DOUBLE_MAX]

/-- C4, witness: the single-entry case at sample 100 and the
raw-difference case at samples (100, 200). -/
theorem C4_witness :
    (({ vec := [100], name := "#" } : values_t).rate 1).vec = [0] ∧
    (({ vec := [100], name := "#" } : values_t).rate 1).pval = 100 ∧
    (({ vec := [0, 200], pval := 100, name := "#" } : values_t).rate 1).vec =
      [0, (200 - 100 : ℚ) / 1] ∧
    (({ vec := [0, 200], pval := 100, name := "#" } : values_t).rate 1).pval = 200 := by
  have H1 := C4_rate_increasing_counters.1 { vec := [100], name := "#" } 100 1 rfl
  have H2 := C4_rate_increasing_counters.2.1 { vec := [0, 200], pval := 100, name := "#" }
    [0] 200 100 1 rfl (by simp) rfl (by norm_num)
  exact ⟨H1.1, H1.2, H2.1, H2.2⟩

/-- C5: the per-cycle window computation widens the running global max
(resp. min) by every series' updated stats, raises the max to `softmax`
when it is below it (and symmetrically lowers the min to `softmin`),
and forces `global_max = hardmax` exactly whenever `hardmax` differs
from the sentinel `DOUBLE_MAX` (symmetrically `hardmin` /
`DOUBLE_MIN`), regardless of observed data. -/
theorem C5_computeWindow (global_max0 global_min0 softmax softmin hardmax hardmin : ℚ)
    (series : List values_t) :
    (hardmax = DOUBLE_MAX →
      softmax ≤ (computeWindow global_max0 global_min0 series softmax softmin hardmax hardmin).1 ∧
      global_max0 ≤ (computeWindow global_max0 global_min0 series softmax softmin hardmax hardmin).1 ∧
      ∀ p ∈ series, (p.update).max ≤
        (computeWindow global_max0 global_min0 series softmax softmin hardmax hardmin).1) ∧
    (hardmax = DOUBLE_MAX → global_max0 < softmax →
      (∀ p ∈ series, (p.update).max < softmax) →
      (computeWindow global_max0 global_min0 series softmax softmin hardmax hardmin).1 = softmax) ∧
    (hardmax ≠ DOUBLE_MAX →
      (computeWindow global_max0 global_min0 series softmax softmin hardmax hardmin).1 = hardmax) ∧
    (hardmin = DOUBLE_MIN →
      (computeWindow global_max0 global_min0 series softmax softmin hardmax hardmin).2 ≤ softmin ∧
      (computeWindow global_max0 global_min0 series softmax softmin hardmax hardmin).2 ≤ global_min0 ∧
      ∀ p ∈ series,
        (computeWindow global_max0 global_min0 series softmax softmin hardmax hardmin).2 ≤
          (p.update).min) ∧
    (hardmin = DOUBLE_MIN → softmin < global_min0 →
      (∀ p ∈ series, softmin < (p.update).min) →
      (computeWindow global_max0 global_min0 series softmax softmin hardmax hardmin).2 = softmin) ∧
    (hardmin ≠ DOUBLE_MIN →
      (computeWindow global_max0 global_min0 series softmax softmin hardmax hardmin).2 = hardmin) := by
  have hfold1 :
      (series.map values_t.update).foldl (fun g p => qmaxf g p.max) global_max0 =
        ((series.map values_t.update).map values_t.max).foldl qmaxf global_max0 := by
    simp only [List.foldl_map]
  have hfold2 :
      (series.map values_t.update).foldl (fun g p => qminf g p.min) global_min0 =
        ((series.map values_t.update).map values_t.min).foldl qminf global_min0 := by
    simp only [List.foldl_map]
  refine ⟨?_, ?_, ?_, ?_, ?_, ?_⟩
  · intro hmax
    rw [computeWindow]
    simp only [if_neg (by simp [hmax] : ¬ hardmax ≠ DOUBLE_MAX)]
    refine ⟨?_, ?_, ?_⟩
    · split
      · exact le_refl _
      · linarith [not_lt.mp (by assumption : ¬ _ < softmax)]
    · have hg : global_max0 ≤
          (series.map values_t.update).foldl (fun g p => qmaxf g p.max) global_max0 := by
        rw [hfold1]; exact le_foldl_qmaxf _ _
      split
      · linarith
      · exact hg
    · intro p hp
      have hm : (p.update).max ∈ (series.map values_t.update).map values_t.max :=
        List.mem_map.mpr ⟨p.update, List.mem_map.mpr ⟨p, hp, rfl⟩, rfl⟩
      have hg : (p.update).max ≤
          (series.map values_t.update).foldl (fun g p => qmaxf g p.max) global_max0 := by
        rw [hfold1]; exact mem_le_foldl_qmaxf hm _
      split
      · linarith
      · exact hg
  · intro hmax hlt hall
    rw [computeWindow]
    simp only [if_neg (by simp [hmax] : ¬ hardmax ≠ DOUBLE_MAX)]
    have hg : (series.map values_t.update).foldl (fun g p => qmaxf g p.max) global_max0 <
        softmax := by
      rw [hfold1]
      refine foldl_qmaxf_lt hlt ?_
      intro x hx
      rcases List.mem_map.mp hx with ⟨q, hq, rfl⟩
      rcases List.mem_map.mp hq with ⟨p, hp, rfl⟩
      exact hall p hp
    rw [if_pos hg]
  · intro hmax
    rw [computeWindow]
    simp only [if_pos hmax]
  · intro hmin
    rw [computeWindow]
    simp only [if_neg (by simp [hmin] : ¬ hardmin ≠ DOUBLE_MIN)]
    refine ⟨?_, ?_, ?_⟩
    · split
      · exact le_refl _
      · linarith [not_lt.mp (by assumption : ¬ softmin < _)]
    · have hg : (series.map values_t.update).foldl (fun g p => qminf g p.min) global_min0 ≤
          global_min0 := by
        rw [hfold2]; exact foldl_qminf_le _ _
      split
      · linarith
      · exact hg
    · intro p hp
      have hm : (p.update).min ∈ (series.map values_t.update).map values_t.min :=
        List.mem_map.mpr ⟨p.update, List.mem_map.mpr ⟨p, hp, rfl⟩, rfl⟩
      have hg : (series.map values_t.update).foldl (fun g p => qminf g p.min) global_min0 ≤
          (p.update).min := by
        rw [hfold2]; exact foldl_qminf_le_mem hm _
      split
      · linarith
      · exact hg
  · intro hmin hlt hall
    rw [computeWindow]
    simp only [if_neg (by simp [hmin] : ¬ hardmin ≠ DOUBLE_MIN)]
    have hg : softmin < (series.map values_t.update).foldl (fun g p => qminf g p.min)
        global_min0 := by
      rw [hfold2]
      refine lt_foldl_qminf hlt ?_
      intro x hx
      rcases List.mem_map.mp hx with ⟨q, hq, rfl⟩
      rcases List.mem_map.mp hq with ⟨p, hp, rfl⟩
      exact hall p hp
    rw [if_pos hg]
  · intro hmin
    rw [computeWindow]
    simp only [if_pos hmin]

/-- C5, witness: with `softMax = 10`, no hard bounds and observed series
max 5, the window max is 10; with hard max 3 it is exactly 3. -/
theorem C5_witness :
    (computeWindow DOUBLE_MIN DOUBLE_MAX [{ vec := [5], name := "#" }] 10
      DOUBLE_MAX DOUBLE_MAX DOUBLE_MIN).1 = 10 ∧
    (computeWindow DOUBLE_MIN DOUBLE_MAX [{ vec := [5], name := "#" }] 10
      DOUBLE_MAX 3 DOUBLE_MIN).1 = 3 := by
  have hupd : ({ vec := [5], name := "#" } : values_t).update.max = 5 := by
    simp +decide [values_t.update, values_t.statEntries, List.filter, qmaxf,
      DOUBLE_UNINIT, DOUBLE_MIN, DOUBLE_MAX]
  constructor
  · refine (C5_computeWindow DOUBLE_MIN DOUBLE_MAX 10 DOUBLE_MAX DOUBLE_MAX DOUBLE_MIN
      [{ vec := [5], name := "#" }]).2.1 rfl ?_ ?_
    · norm_num [DOUBLE_MIN, DOUBLE_MAX]
    · intro p hp
      rw [List.mem_singleton.mp hp, hupd]
      norm_num
  · refine (C5_computeWindow DOUBLE_MIN DOUBLE_MAX 10 DOUBLE_MAX 3 DOUBLE_MIN
      [{ vec := [5], name := "#" }]).2.2.1 ?_
    norm_num [DOUBLE_MAX]

/-- C6: for a displayed window with `global_min < global_max` and a
positive plot height, the row classification of `values_t::plot` maps
any value at or above `hardmax` to row 0 with the high-error flag, any
other value at or below `global_min` to row `plotheight - 1` with the
low-error flag (the high test uses the hard maximum, the low test the
global minimum, and the hardmax test takes precedence), and any other
value to `plotheight - ⌊(val - min)/(max - min) · plotheight⌋ - 1`
clamped to at least 0, with neither flag. -/
theorem C6_mapRow (val global_max global_min hardmax : ℚ) (h : ℤ)
    (hwin : global_min < global_max) (hh : 1 ≤ h) :
    (hardmax ≤ val →
      mapRow val h global_max global_min hardmax =
        { row := 0, errHigh := true, errLow := false }) ∧
    (val < hardmax → val ≤ global_min →
      mapRow val h global_max global_min hardmax =
        { row := h - 1, errHigh := false, errLow := true }) ∧
    (val < hardmax → global_min < val →
      mapRow val h global_max global_min hardmax =
        { row := if h - ⌊(val - global_min) / (global_max - global_min) * (h : ℚ)⌋ - 1 < 0
                 then 0
                 else h - ⌊(val - global_min) / (global_max - global_min) * (h : ℚ)⌋ - 1,
          errHigh := false, errLow := false }) := by
  refine ⟨?_, ?_, ?_⟩
  · intro h1
    rw [mapRow, if_pos h1]
  · intro h1 h2
    rw [mapRow, if_neg (not_le.mpr h1), if_pos h2]
  · intro h1 h2
    rw [mapRow, if_neg (not_le.mpr h1), if_neg (not_le.mpr h2)]
    have hq : (0 : ℚ) ≤ (val - global_min) / (global_max - global_min) * (h : ℚ) := by
      have hnum : (0 : ℚ) ≤ (val - global_min) / (global_max - global_min) :=
        div_nonneg (by linarith) (by linarith)
      have hcast : (0 : ℚ) ≤ (h : ℚ) := by exact_mod_cast le_trans (by norm_num) hh
      exact mul_nonneg hnum hcast
    simp only [qtrunc]
    rw [if_pos hq]

/-- C6, witness: with window [0, 20], hard max 20 and plot height 20:
value 25 maps to row 0 flagged high, value -1 to row 19 flagged low,
and value 5 to row 14 unflagged. -/
theorem C6_witness :
    mapRow 25 20 20 0 20 = { row := 0, errHigh := true, errLow := false } ∧
    mapRow (-1) 20 20 0 20 = { row := 19, errHigh := false, errLow := true } ∧
    mapRow 5 20 20 0 20 = { row := 14, errHigh := false, errLow := false } := by
  have h0 : (0 : ℚ) < 20 := by norm_num
  have hh : (1 : ℤ) ≤ 20 := by norm_num
  refine ⟨(C6_mapRow 25 20 0 20 20 h0 hh).1 (by norm_num), ?_, ?_⟩
  · have H := (C6_mapRow (-1) 20 0 20 20 h0 hh).2.1 (by norm_num) (by norm_num)
    rw [H]
    norm_num
  · have H := (C6_mapRow 5 20 0 20 20 h0 hh).2.2 (by norm_num) (by norm_num)
    rw [H]
    rw [show ((5 : ℚ) - 0) / (20 - 0) * ((20 : ℤ) : ℚ) = 5 by push_cast; norm_num]
    rw [show ⌊(5 : ℚ)⌋ = 5 from Int.floor_ofNat 5]
    norm_num

/-- C7, counterexample: for the history [1, 2, 3, 4] the computed median
is 3 (the element at index 4/2 = 2 of the ascending sort, i.e. the
upper-middle), not the lower-middle 2 stated by the claim. -/
theorem C7_counterexample :
    ({ vec := [1, 2, 3, 4], name := "#" } : values_t).update.med = 3 ∧ ((3 : ℚ) ≠ 2) := by
  constructor
  · simp +decide [values_t.update, values_t.statEntries, List.insertionSort,
      List.orderedInsert, List.filter, DOUBLE_UNINIT, DOUBLE_MIN, DOUBLE_MAX]
  · norm_num

/-- C7, amended: `values_t::update` sets the median to the element at
index ⌊count/2⌋ (0-based) of the non-sentinel entries arranged in
ascending order — the upper-middle element when the count is even, not
the lower-middle one; no interpolation occurs.  The statement is
phrased for an arbitrary ascending arrangement `l` of the non-sentinel
entries. -/
theorem C7_median (s : values_t) (l : List ℚ) (hs : l.Sorted (fun a b : ℚ => a ≤ b))
    (hp : s.statEntries.Perm l) (hne : l ≠ []) :
    s.update.med = l.getD (l.length / 2) 0 := by
  have hmv : s.statEntries ≠ [] := by
    intro h
    exact hne (((h ▸ hp) : ([] : List ℚ).Perm l).symm.eq_nil)
  have hvec : s.vec ≠ [] := by
    intro h
    exact hmv (by simp [values_t.statEntries, h])
  have hsort : List.insertionSort (fun a b : ℚ => a ≤ b) s.statEntries = l :=
    List.eq_of_perm_of_sorted ((List.perm_insertionSort _ _).trans hp)
      (List.sorted_insertionSort _ _) hs
  rw [values_t.update]
  rw [if_neg hvec]
  simp only [if_neg hmv]
  rw [hsort, hp.length_eq]

/-- C7, witness: the even-count history [1, 2, 3, 4], whose median is
the index-2 element of the sort. -/
theorem C7_witness :
    ([1, 2, 3, 4] : List ℚ).Sorted (fun a b : ℚ => a ≤ b) ∧
    ({ vec := [1, 2, 3, 4], name := "#" } : values_t).update.med =
      ([1, 2, 3, 4] : List ℚ).getD (([1, 2, 3, 4] : List ℚ).length / 2) 0 := by
  have hsort : ([1, 2, 3, 4] : List ℚ).Sorted (fun a b : ℚ => a ≤ b) := by
    norm_num [List.sorted_cons]
  have hse : ({ vec := [1, 2, 3, 4], name := "#" } : values_t).statEntries =
      ([1, 2, 3, 4] : List ℚ) := by
    simp +decide [values_t.statEntries, List.filter, DOUBLE_UNINIT, DOUBLE_MIN, DOUBLE_MAX]
  exact ⟨hsort, C7_median _ [1, 2, 3, 4] hsort (hse ▸ List.Perm.refl _) (by simp)⟩

/-- C8, counterexample: the cpu/mem scenario at plot width 3 leaves
`mem.history = [30, sentinel, sentinel]` of length 3, not
`[30, sentinel]` of length 2 as the claim states: the end-of-cycle pad
of `mem` in cycle three first resizes it up to `max_size - 1 = 2` and
then appends the sentinel. -/
theorem C8_counterexample :
    (c8run 3).values.map (fun p => (p.1, p.2.vec)) =
      [("cpu", [50, 60, 70]), ("mem", [30, DOUBLE_UNINIT, DOUBLE_UNINIT])] ∧
    ([30, DOUBLE_UNINIT, DOUBLE_UNINIT] : List ℚ) ≠ [30, DOUBLE_UNINIT] := by
  have hmc : ¬ (("mem" : String) < "cpu") := by
    simp
    decide
  constructor
  · simp +decide [c8run, Store.kvCycle, Store.empty, Store.push_back, Store.clearFlags,
      Store.padAll, Store.padOne, lookupS, insertSorted, values_t.push_back, values_t.mk0,
      Store.keys, eq_false hmc]
  · simp

set_option maxHeartbeats 2000000 in
/-- C8, amended: in key/value mode with any plot width of at least 3,
feeding the cycles {cpu=50}, then {mem=30, cpu=60} (line order as
written), then {cpu=70} leaves `mem.history = [30, sentinel, sentinel]`
of length 3, the same length as `cpu.history = [50, 60, 70]`, with
`max_size = 3`: all histories are column-aligned in length, with the
30 occupying the first column because the store pads a lagging series
before appending, after the value was already placed. -/
theorem C8_aligned_histories (w : Nat) (hw : 3 ≤ w) :
    (c8run w).values.map (fun p => (p.1, p.2.vec)) =
      [("cpu", [50, 60, 70]), ("mem", [30, DOUBLE_UNINIT, DOUBLE_UNINIT])] ∧
    (c8run w).max_size = 3 ∧
    (∀ p ∈ (c8run w).values, p.2.vec.length = 3) := by
  obtain ⟨k, rfl⟩ : ∃ k, w = 3 + k := ⟨w - 3, by omega⟩
  have hmc : ¬ (("mem" : String) < "cpu") := by
    simp
    decide
  have h1 : ¬ (3 + k < 1) := by omega
  have h2 : ¬ (3 + k < 2) := by omega
  have h3 : ¬ (3 + k < 3) := by omega
  refine ⟨?_, ?_, ?_⟩ <;>
    simp +decide [c8run, Store.kvCycle, Store.empty, Store.push_back, Store.clearFlags,
      Store.padAll, Store.padOne, lookupS, insertSorted, values_t.push_back, values_t.mk0,
      Store.keys, eq_false hmc, h1, h2, h3]

/-- C8, witness: the amended scenario instantiated at plot width 3. -/
theorem C8_witness :
    3 ≤ 3 ∧ (c8run 3).max_size = 3 ∧ (∀ p ∈ (c8run 3).values, p.2.vec.length = 3) :=
  ⟨by omega, (C8_aligned_histories 3 (by omega)).2.1, (C8_aligned_histories 3 (by omega)).2.2⟩

/-- C9, counterexample: the sentinel `DOUBLE_UNINIT` equals `-FLT_MAX`,
a representable sample value.  Ingesting exactly that value into a
fresh series yields a history whose update statistics are all 0 and
whose `last()` is 0 — the legitimately supplied sample is silently
treated as padding, refuting the claim that the sentinel is distinct
from every legal sample. -/
theorem C9_counterexample :
    (((values_t.mk0 "#").push_back DOUBLE_UNINIT 5 false 0).1.vec = [DOUBLE_UNINIT]) ∧
    ((values_t.mk0 "#").push_back DOUBLE_UNINIT 5 false 0).1.update.max = 0 ∧
    ((values_t.mk0 "#").push_back DOUBLE_UNINIT 5 false 0).1.update.min = 0 ∧
    ((values_t.mk0 "#").push_back DOUBLE_UNINIT 5 false 0).1.last = 0 ∧
    DOUBLE_UNINIT ≠ (0 : ℚ) := by
  refine ⟨?_, ?_, ?_, ?_, ?_⟩ <;>
    simp +decide [values_t.mk0, values_t.push_back, values_t.update, values_t.statEntries,
      values_t.last, List.filter, List.find?, DOUBLE_UNINIT, DOUBLE_MIN, DOUBLE_MAX]

/-- C9, amended: entries are classified as sentinel only by equality
comparison with `DOUBLE_UNINIT`, never by a range test, so every
sample different from the sentinel constant is counted: it belongs to
the statistics population used by avg/median, it bounds `update`'s min
and max, and `last()` returns it when it is the most recent entry.
Only a sample exactly equal to `-FLT_MAX` is treated as padding. -/
theorem C9_legal_samples_counted (s : values_t) (v : ℚ) (hv : v ≠ DOUBLE_UNINIT) :
    (v ∈ s.vec → v ∈ s.statEntries ∧ s.update.min ≤ v ∧ v ≤ s.update.max) ∧
    (values_t.last { s with vec := s.vec ++ [v] } = v) := by
  constructor
  · intro hmem
    have hstat : v ∈ s.statEntries := by
      rw [values_t.statEntries, List.mem_filter]
      exact ⟨hmem, by simp [hv]⟩
    have hvec : s.vec ≠ [] := List.ne_nil_of_mem hmem
    have hmv : s.statEntries ≠ [] := List.ne_nil_of_mem hstat
    refine ⟨hstat, ?_, ?_⟩ <;>
      · rw [values_t.update, if_neg hvec]
        simp only [if_neg hmv]
        first
          | exact foldl_qminf_le_mem hstat _
          | exact mem_le_foldl_qmaxf hstat _
  · rw [values_t.last]
    simp only [List.reverse_append, List.reverse_cons, List.reverse_nil, List.nil_append,
      List.singleton_append]
    rw [List.find?_cons_of_pos _ (by simp [hv])]
    rfl

/-- C9, witness: the sample 7 in concrete histories. -/
theorem C9_witness :
    ((7 : ℚ) ≠ DOUBLE_UNINIT) ∧
    ({ vec := [3, 7], name := "#" } : values_t).update.min ≤ 7 ∧
    (7 : ℚ) ≤ ({ vec := [3, 7], name := "#" } : values_t).update.max ∧
    values_t.last { ({ vec := [3], name := "#" } : values_t) with vec := [3] ++ [7] } = 7 := by
  have h7 : (7 : ℚ) ≠ DOUBLE_UNINIT := by norm_num [DOUBLE_UNINIT, DOUBLE_MIN, DOUBLE_MAX]
  have H := C9_legal_samples_counted { vec := [3, 7], name := "#" } 7 h7
  have H2 := C9_legal_samples_counted { vec := [3], name := "#" } 7 h7
  exact ⟨h7, (H.1 (by simp)).2.1, (H.1 (by simp)).2.2, H2.2⟩

/-- C10: a push into a fresh series with `plotwidth = 0` and
`max_size = 0` appends the value and immediately evicts it, leaving the
history empty; consequently any sequence of pushes, and any complete
key/value cycle, at `plotwidth = 0` keeps every history empty, and the
first loop iteration of `main` (which pushes before recomputing
`plotwidth` from the screen geometry) discards the first sample in
every operating mode. -/
theorem C10_first_sample_discarded :
    (∀ (v : ℚ) (b : Bool), ((values_t.mk0 "#").push_back v 0 b 0).1.vec = []) ∧
    (∀ (st : Store) (s : String) (v : ℚ) (b : Bool), st.AllEmpty →
      (st.push_back s v 0 b).AllEmpty) ∧
    (∀ (st : Store) (pairs : List (String × ℚ)) (b : Bool), st.AllEmpty →
      (st.kvCycle pairs 0 b).AllEmpty) ∧
    (∀ (v : ℚ) (b : Bool) (sw : Nat), (mainFirstIngestOne v b sw).1.AllEmpty) := by
  refine ⟨?_, ?_, ?_, ?_⟩
  · intro v b; exact (values_push_zero rfl v b).1
  · intro st s v b h; exact store_push_zero s v b h
  · intro st pairs b h; exact kvCycle_zero pairs b h
  · intro v b sw
    refine store_push_zero "1" v b ⟨?_, rfl⟩
    intro p hp
    rcases List.mem_singleton.mp hp with rfl
    rfl

/-- C10, witness: the empty store and concrete pushes/cycles at plot
width 0. -/
theorem C10_witness :
    Store.empty.AllEmpty ∧
    (Store.empty.push_back "1" 42 0 false).AllEmpty ∧
    (Store.empty.kvCycle [("cpu", 1), ("mem", 2)] 0 false).AllEmpty := by
  have h0 : Store.empty.AllEmpty := ⟨by simp [Store.empty], rfl⟩
  exact ⟨h0, C10_first_sample_discarded.2.1 Store.empty "1" 42 false h0,
    C10_first_sample_discarded.2.2.1 Store.empty [("cpu", 1), ("mem", 2)] false h0⟩

end Ttyplot
